import Mathlib

/-!
Verification of the sRGB "unprocessing" pipeline
(`mmagic/datasets/transforms/gcp_unprocess.py`).

The source operates on channel-first float tensors of shape (3, H, W).
We embed an image as a function `Fin 3 → ℕ → ℕ → α` over a linear ordered
field `α` (rational instantiation for exact, decidable evaluation; real
instantiation where the source uses transcendental functions `sin`,
`asin` and a real exponent).  Random draws (the normal sample behind
`rgb_gain`, the uniform draws behind the white-balance gains and the CCM
weights) become explicit arguments of the sampling functions, with their
supports stated as hypotheses where a claim quantifies over outcomes:
the support of the normal distribution is all of ℝ, and
`torch.Tensor.uniform_(a, b)` draws from the half-open interval [a, b).
-/

namespace GcpUnprocess

/-- A channel-first image buffer with `c` channels: the value at
channel `ch`, row `i`, column `j` is `img ch i j`. -/
abbrev Image (c : ℕ) (α : Type) : Type := Fin c → ℕ → ℕ → α

section Field

variable {α : Type} [LinearOrderedField α]

/-- `torch.clamp(x, min=0.0, max=1.0)` on a single sample. -/
def clamp01 (x : α) : α := min (max x 0) 1

/-- Elementwise clamp of an image to `[0, 1]`
(`torch.clamp(image, min=0.0, max=1.0)` inside the orchestrators). -/
def clampImage01 (img : Image 3 α) : Image 3 α := fun c i j => clamp01 (img c i j)

/-- The four fixed XYZ → Camera reference CCMs of `random_ccm`. -/
def xyz2cams : Fin 4 → Matrix (Fin 3) (Fin 3) α
  | 0 => !![1.0234, -0.2969, -0.2266; -0.5625, 1.6328, -0.0469; -0.0703, 0.2188, 0.6406]
  | 1 => !![0.4913, -0.0541, -0.0202; -0.613, 1.3513, 0.2906; -0.1564, 0.2151, 0.7183]
  | 2 => !![0.838, -0.263, -0.0639; -0.2887, 1.0725, 0.2496; -0.0627, 0.1427, 0.5438]
  | 3 => !![0.6596, -0.2079, -0.0562; -0.4782, 1.3016, 0.1933; -0.097, 0.1581, 0.5181]

/-- The fixed RGB → XYZ reference matrix of `random_ccm`. -/
def rgb2xyz : Matrix (Fin 3) (Fin 3) α :=
  !![0.4124564, 0.3575761, 0.1804375;
     0.2126729, 0.7151522, 0.0721750;
     0.0193339, 0.1191920, 0.9503041]

/-- The weighted combination `xyz2cam = sum(xyz2cams * weights) / weights_sum`
of `random_ccm`, with the random weights `w` (drawn from `[1e-8, 1e8)`)
passed explicitly. -/
def weightedXyz2cam (w : Fin 4 → α) : Matrix (Fin 3) (Fin 3) α :=
  Matrix.of fun r k => (∑ i, w i * xyz2cams i r k) / (∑ i, w i)

/-- `rgb2cam = torch.mm(xyz2cam, rgb2xyz)` before row normalization. -/
def rgb2camPrenorm (w : Fin 4 → α) : Matrix (Fin 3) (Fin 3) α :=
  weightedXyz2cam w * rgb2xyz

/-- `random_ccm()` with the four uniform weight draws `w` passed
explicitly: the weighted XYZ → Camera matrix times RGB → XYZ, then each
row divided by its own sum. -/
def random_ccm (w : Fin 4 → α) : Matrix (Fin 3) (Fin 3) α :=
  Matrix.of fun r c => rgb2camPrenorm w r c / (∑ k, rgb2camPrenorm w r k)

/-- `random_gains(rgb_gain_ratio)` with the random draws passed
explicitly: `nSample` is the sample of the normal distribution
`N(0.8, 0.1)` (support: all reals), `redU` and `blueU` the uniform
draws from the red/blue gain ranges.  Returns
`(rgb_gain, red_gain, blue_gain)` with
`rgb_gain = rgb_gain_ratio * (1 / nSample)`. -/
def random_gains (rgb_gain_ratio nSample redU blueU : α) : α × α × α :=
  (rgb_gain_ratio * (1 / nSample), redU, blueU)

/-- `apply_ccm(image, ccm)`: every pixel's 3-vector is contracted with
the last axis of `ccm` (`torch.tensordot(image, ccm, dims=[[-1],[-1]])`):
output channel `c` is `∑ k, image[k] * ccm[c][k]`. -/
def apply_ccm (img : Image 3 α) (ccm : Matrix (Fin 3) (Fin 3) α) : Image 3 α :=
  fun c i j => ∑ k, img k i j * ccm c k

/-- The per-channel gain vector of `safe_invert_gains`:
`torch.stack((1.0 / red_gain, 1.0, 1.0 / blue_gain)) / rgb_gain`. -/
def gains3 (rgb_gain red_gain blue_gain : α) : Fin 3 → α
  | 0 => (1 / red_gain) / rgb_gain
  | 1 => 1 / rgb_gain
  | 2 => (1 / blue_gain) / rgb_gain

/-- `safe_invert_gains(image, rgb_gain, red_gain, blue_gain)`:
per pixel, `gray` is the mean of the three channels,
`mask = (clamp(gray - 0.9, min=0) / (1 - 0.9))^2` and the applied gain is
`max(mask + (1 - mask) * gain, gain)` per channel (the source squares
with the float power `** 2.0`; the base is nonnegative after the clamp,
so this is the ordinary square). -/
def safe_invert_gains (img : Image 3 α) (rgb_gain red_gain blue_gain : α) : Image 3 α :=
  fun c i j =>
    let g := gains3 rgb_gain red_gain blue_gain c
    let gray := (∑ k : Fin 3, img k i j) / 3
    let mask := (max (gray - 0.9) 0 / (1 - 0.9)) ^ 2
    img c i j * max (mask + (1 - mask) * g) g

/-- The Bayer-plane extraction of `mosaic`:
`red = image[0::2, 0::2, 0]`, `green_red = image[0::2, 1::2, 1]`,
`green_blue = image[1::2, 0::2, 1]`, `blue = image[1::2, 1::2, 2]`,
stacked as output channels 0..3 (channel-first after the final permute). -/
def mosaicData (img : Image 3 α) : Image 4 α :=
  fun c i j =>
    match c with
    | ⟨0, _⟩ => img 0 (2 * i) (2 * j)
    | ⟨1, _⟩ => img 1 (2 * i) (2 * j + 1)
    | ⟨2, _⟩ => img 1 (2 * i + 1) (2 * j)
    | ⟨3, _⟩ => img 2 (2 * i + 1) (2 * j + 1)
    | ⟨n + 4, h⟩ => absurd h (by omega)

/-- The error message torch raises when `torch.stack` receives planes of
unequal sizes (which is what happens in `mosaic` for odd H or W: the
even-row and odd-row slices then have different lengths). -/
def mosaicShapeError : String := "stack expects each tensor to be equal size"

/-- `mosaic(image)` on an image of shape (3, H, W): the four extracted
Bayer planes all have the same shape exactly when `H` and `W` are even,
in which case the stack succeeds and, after
`reshape(shape[0] // 2, shape[1] // 2, 4)` and the final permute, the
result has shape (4, H/2, W/2).  For odd `H` or `W` the planes have
unequal sizes and `torch.stack` raises a size-mismatch error; there is
no shape check anywhere before this point.  The `ok` payload carries the
output shape together with the extracted data. -/
def mosaicE (H W : ℕ) (img : Image 3 α) :
    Except String ((ℕ × ℕ × ℕ) × Image 4 α) :=
  if H % 2 = 0 ∧ W % 2 = 0 then
    Except.ok ((4, H / 2, W / 2), mosaicData img)
  else
    Except.error mosaicShapeError

/-- The metadata record `{cam2rgb, rgb2cam, rgb_gain, red_gain, blue_gain}`
assembled by the orchestrators. -/
structure Metadata (α : Type) where
  cam2rgb : Matrix (Fin 3) (Fin 3) α
  rgb2cam : Matrix (Fin 3) (Fin 3) α
  rgb_gain : α
  red_gain : α
  blue_gain : α

end Field

/-- Auxiliary quantity for the row-sum analysis of `random_ccm`:
`rowWeight i r` is the sum of row `r` of `xyz2cams i * rgb2xyz`, so the
row sums of the un-normalized `rgb2cam` are the convex combinations
`(∑ i, w i * rowWeight i r) / (∑ i, w i)`.  All twelve values are
positive. -/
def rowWeight (i : Fin 4) (r : Fin 3) : ℚ :=
  ∑ k, xyz2cams i r k * (∑ c, rgb2xyz k c)

/-- `inverse_smoothstep(image)`: clamp to `[0, 1]`, then
`0.5 - sin(asin(1 - 2 * image) / 3)` elementwise. -/
noncomputable def inverse_smoothstep (img : Image 3 ℝ) : Image 3 ℝ :=
  fun c i j => 0.5 - Real.sin (Real.arcsin (1.0 - 2.0 * clamp01 (img c i j)) / 3.0)

/-- `gamma_expansion(image)`: `clamp(image, min=1e-8) ** 2.2`
elementwise (real exponent, so a real power). -/
noncomputable def gamma_expansion (img : Image 3 ℝ) : Image 3 ℝ :=
  fun c i j => (max (img c i j) 1e-8) ^ (2.2 : ℝ)

/-- The forward smoothstep tone curve `y = 3x² - 2x³` that
`inverse_smoothstep` inverts (the reference law stated in the spec; the
forward direction does not appear in the source file). -/
def smoothstep (x : ℝ) : ℝ := 3 * x ^ 2 - 2 * x ^ 3

/-- `unprocess_gt(image)` with the random draws passed explicitly
(`w` the CCM weight draws, `nSample`/`redU`/`blueU` the gain draws):
sample CCM and gains, then
inverse_smoothstep → gamma_expansion → apply_ccm → safe_invert_gains →
clamp to [0,1]; no mosaic.  Returns the image and the metadata record. -/
noncomputable def unprocess_gt (w : Fin 4 → ℝ) (nSample redU blueU : ℝ)
    (image : Image 3 ℝ) : Image 3 ℝ × Metadata ℝ :=
  let rgb2cam := random_ccm w
  let cam2rgb := rgb2cam⁻¹
  let g := random_gains 1 nSample redU blueU
  let i1 := inverse_smoothstep image
  let i2 := gamma_expansion i1
  let i3 := apply_ccm i2 rgb2cam
  let i4 := safe_invert_gains i3 g.1 g.2.1 g.2.2
  let i5 := clampImage01 i4
  (i5, ⟨cam2rgb, rgb2cam, g.1, g.2.1, g.2.2⟩)

/-- `unprocess(image)` with the random draws passed explicitly and the
input shape (3, H, W) made explicit: the same chain as `unprocess_gt`
followed by the mosaic stage.  The mosaic stage is the only partial
step (it errors on odd H or W); every earlier stage is a total
function. -/
noncomputable def unprocess (w : Fin 4 → ℝ) (nSample redU blueU : ℝ)
    (H W : ℕ) (image : Image 3 ℝ) :
    Except String (((ℕ × ℕ × ℕ) × Image 4 ℝ) × Metadata ℝ) :=
  let rgb2cam := random_ccm w
  let cam2rgb := rgb2cam⁻¹
  let g := random_gains 1 nSample redU blueU
  let i1 := inverse_smoothstep image
  let i2 := gamma_expansion i1
  let i3 := apply_ccm i2 rgb2cam
  let i4 := safe_invert_gains i3 g.1 g.2.1 g.2.2
  let i5 := clampImage01 i4
  (mosaicE H W i5).map (fun p => (p, ⟨cam2rgb, rgb2cam, g.1, g.2.1, g.2.2⟩))

/-- `unprocess_meta_gt(image, rgb_gains, red_gains, blue_gains, rgb2cam,
cam2rgb)`: the same chain as `unprocess_gt` but with all camera
parameters supplied by the caller; the function performs no sampling of
its own (its body contains no random draw), so it embeds as a pure
function of exactly these explicit arguments. -/
noncomputable def unprocess_meta_gt (image : Image 3 ℝ)
    (rgb_gains red_gains blue_gains : ℝ)
    (rgb2cam cam2rgb : Matrix (Fin 3) (Fin 3) ℝ) : Image 3 ℝ × Metadata ℝ :=
  let i1 := inverse_smoothstep image
  let i2 := gamma_expansion i1
  let i3 := apply_ccm i2 rgb2cam
  let i4 := safe_invert_gains i3 rgb_gains red_gains blue_gains
  let i5 := clampImage01 i4
  (i5, ⟨cam2rgb, rgb2cam, rgb_gains, red_gains, blue_gains⟩)

/-! ## Theorems -/

/-- C2 (counterexample): the normal distribution behind `rgb_gain` has
support all of ℝ, so the draw `-1` is a possible outcome; with the
uniform draws `2 ∈ [1.9, 2.4)` and `1.7 ∈ [1.5, 1.9)` in their supports,
`random_gains` returns `rgb_gain = -1`, which is not positive.  The
claim "for every outcome of the random draws, rgb_gain > 0" is false. -/
theorem random_gains_negative_rgb_gain :
    ¬ (0 < (random_gains (1 : ℚ) (-1) 2 (17 / 10)).1) := by
  norm_num [random_gains]

/-- C2 (amended): for every outcome of the random draws in which the
normal sample is positive, `random_gains` (with default arguments)
returns `rgb_gain > 0`; `red_gain ∈ [1.9, 2.4]` and
`blue_gain ∈ [1.5, 1.9]` hold for every outcome of the uniform draws
(whose supports are `[1.9, 2.4)` and `[1.5, 1.9)`). -/
theorem random_gains_ranges (nSample redU blueU : ℚ)
    (hn : 0 < nSample)
    (hredL : 19 / 10 ≤ redU) (hredR : redU < 24 / 10)
    (hblueL : 3 / 2 ≤ blueU) (hblueR : blueU < 19 / 10) :
    0 < (random_gains 1 nSample redU blueU).1 ∧
    19 / 10 ≤ (random_gains 1 nSample redU blueU).2.1 ∧
    (random_gains 1 nSample redU blueU).2.1 ≤ 24 / 10 ∧
    3 / 2 ≤ (random_gains 1 nSample redU blueU).2.2 ∧
    (random_gains 1 nSample redU blueU).2.2 ≤ 19 / 10 := by
  refine ⟨?_, hredL, le_of_lt hredR, hblueL, le_of_lt hblueR⟩
  simp only [random_gains, one_mul]
  exact one_div_pos.mpr hn

/-- Witness for C2's amended theorem at the draws `(0.8, 2, 1.7)`. -/
theorem random_gains_ranges_witness :
    (0 : ℚ) < 4 / 5 ∧ (19 / 10 : ℚ) ≤ 2 ∧ (2 : ℚ) < 24 / 10 ∧
    (3 / 2 : ℚ) ≤ 17 / 10 ∧ (17 / 10 : ℚ) < 19 / 10 ∧
    (0 < (random_gains (1 : ℚ) (4 / 5) 2 (17 / 10)).1 ∧
      19 / 10 ≤ (random_gains (1 : ℚ) (4 / 5) 2 (17 / 10)).2.1 ∧
      (random_gains (1 : ℚ) (4 / 5) 2 (17 / 10)).2.1 ≤ 24 / 10 ∧
      3 / 2 ≤ (random_gains (1 : ℚ) (4 / 5) 2 (17 / 10)).2.2 ∧
      (random_gains (1 : ℚ) (4 / 5) 2 (17 / 10)).2.2 ≤ 19 / 10) :=
  ⟨by norm_num, by norm_num, by norm_num, by norm_num, by norm_num,
    random_gains_ranges (4 / 5) 2 (17 / 10) (by norm_num) (by norm_num)
      (by norm_num) (by norm_num) (by norm_num)⟩

/-- C10: for a pixelwise nonnegative image and positive gains, the
output of `safe_invert_gains` dominates the plain gain application
`image * ((1/red_gain, 1, 1/blue_gain) / rgb_gain)` at every sample:
the applied gain `max(mask + (1 - mask) * gain, gain)` is at least
`gain`, so the mask can only brighten, never dim further. -/
theorem safe_invert_gains_ge_plain (img : Image 3 ℚ)
    (rgb_gain red_gain blue_gain : ℚ)
    (himg : ∀ c i j, 0 ≤ img c i j)
    (hrgb : 0 < rgb_gain) (hred : 0 < red_gain) (hblue : 0 < blue_gain) :
    ∀ c i j, img c i j * gains3 rgb_gain red_gain blue_gain c
      ≤ safe_invert_gains img rgb_gain red_gain blue_gain c i j := by
  intro c i j
  simp only [safe_invert_gains]
  exact mul_le_mul_of_nonneg_left (le_max_right _ _) (himg c i j)

/-- Witness for C10 at the constant image `1/2` and gains `(2, 2, 1.7)`,
evaluated at sample (0, 0, 0). -/
theorem safe_invert_gains_ge_plain_witness :
    (∀ c : Fin 3, ∀ i j : ℕ, (0 : ℚ) ≤ (fun _ _ _ => (1 / 2 : ℚ)) c i j) ∧
    (0 : ℚ) < 2 ∧ (0 : ℚ) < 2 ∧ (0 : ℚ) < 17 / 10 ∧
    (fun _ _ _ => (1 / 2 : ℚ)) 0 0 0 * gains3 2 2 (17 / 10) 0
      ≤ safe_invert_gains (fun _ _ _ => (1 / 2 : ℚ)) 2 2 (17 / 10) 0 0 0 :=
  ⟨fun _ _ _ => by norm_num, by norm_num, by norm_num, by norm_num,
    safe_invert_gains_ge_plain (fun _ _ _ => (1 / 2 : ℚ)) 2 2 (17 / 10)
      (fun _ _ _ => by norm_num) (by norm_num) (by norm_num) (by norm_num) 0 0 0⟩

/-- C1 (counterexample): the saturation mask does not force the
effective gain to 1 at full saturation; it forces it to
`max(1, gain)`.  With the normal draw `2` (in the support of
`N(0.8, 0.1)`, which is all of ℝ) and the uniform draws
`2 ∈ [1.9, 2.4)`, `1.7 ∈ [1.5, 1.9)`, `random_gains` returns
`rgb_gain = 1/2`, so the green channel gain is `1 / rgb_gain = 2 > 1`
and `safe_invert_gains` maps the all-ones (fully saturated) image to
`2 ≠ 1` on the green channel: the image is not returned unchanged. -/
theorem safe_invert_gains_saturated_changed :
    (safe_invert_gains (fun _ _ _ => (1 : ℚ))
        (random_gains 1 2 2 (17 / 10)).1
        (random_gains 1 2 2 (17 / 10)).2.1
        (random_gains 1 2 2 (17 / 10)).2.2) 1 0 0 ≠ 1 := by
  norm_num [safe_invert_gains, gains3, random_gains, Fin.sum_univ_three]

/-- C1 (amended): for every gain triple sampled by `random_gains` (with
default arguments) whose normal draw lies in `(0, 1]` — equivalently
`rgb_gain ≥ 1`, so that all three effective gains are at most 1 — and
every fully saturated image (all channels 1.0 everywhere),
`safe_invert_gains` returns the image unchanged: at full saturation the
mask equals 1 and the applied gain is `max(1, gain) = 1`. -/
theorem safe_invert_gains_saturated_id (img : Image 3 ℚ)
    (nSample redU blueU : ℚ)
    (hsat : ∀ c i j, img c i j = 1)
    (hn0 : 0 < nSample) (hn1 : nSample ≤ 1)
    (hredL : 19 / 10 ≤ redU) (hredR : redU < 24 / 10)
    (hblueL : 3 / 2 ≤ blueU) (hblueR : blueU < 19 / 10) :
    ∀ c i j,
      (safe_invert_gains img (random_gains 1 nSample redU blueU).1
        (random_gains 1 nSample redU blueU).2.1
        (random_gains 1 nSample redU blueU).2.2) c i j = img c i j := by
  intro c i j
  have hg : gains3 (random_gains 1 nSample redU blueU).1
      (random_gains 1 nSample redU blueU).2.1
      (random_gains 1 nSample redU blueU).2.2 c ≤ 1 := by
    simp only [random_gains, one_mul]
    fin_cases c
    · show (1 / redU) / (1 / nSample) ≤ 1
      rw [div_div_eq_mul_div, div_one]
      have h1 : (1 : ℚ) / redU ≤ 1 := div_le_one_of_le₀ (by linarith) (by linarith)
      exact mul_le_one₀ h1 (le_of_lt hn0) hn1
    · show 1 / (1 / nSample) ≤ 1
      rw [one_div_one_div]
      exact hn1
    · show (1 / blueU) / (1 / nSample) ≤ 1
      rw [div_div_eq_mul_div, div_one]
      have h1 : (1 : ℚ) / blueU ≤ 1 := div_le_one_of_le₀ (by linarith) (by linarith)
      exact mul_le_one₀ h1 (le_of_lt hn0) hn1
  simp only [safe_invert_gains, hsat, Fin.sum_univ_three]
  rw [show ((1 : ℚ) + 1 + 1) / 3 = 1 by norm_num]
  rw [show (max ((1 : ℚ) - 0.9) 0 / (1 - 0.9)) ^ 2 = 1 by norm_num]
  rw [show ∀ g : ℚ, (1 : ℚ) + (1 - 1) * g = 1 from fun g => by ring]
  rw [max_eq_left hg, mul_one]

/-- Witness for C1's amended theorem: the all-ones image with the draws
`(0.8, 2, 1.7)`. -/
theorem safe_invert_gains_saturated_id_witness :
    (∀ c : Fin 3, ∀ i j : ℕ, (fun _ _ _ => (1 : ℚ)) c i j = 1) ∧
    (0 : ℚ) < 4 / 5 ∧ (4 / 5 : ℚ) ≤ 1 ∧
    (19 / 10 : ℚ) ≤ 2 ∧ (2 : ℚ) < 24 / 10 ∧
    (3 / 2 : ℚ) ≤ 17 / 10 ∧ (17 / 10 : ℚ) < 19 / 10 ∧
    (∀ c i j,
      (safe_invert_gains (fun _ _ _ => (1 : ℚ))
        (random_gains 1 (4 / 5) 2 (17 / 10)).1
        (random_gains 1 (4 / 5) 2 (17 / 10)).2.1
        (random_gains 1 (4 / 5) 2 (17 / 10)).2.2) c i j
        = (fun _ _ _ => (1 : ℚ)) c i j) :=
  ⟨fun _ _ _ => rfl, by norm_num, by norm_num, by norm_num, by norm_num,
    by norm_num, by norm_num,
    safe_invert_gains_saturated_id (fun _ _ _ => (1 : ℚ)) (4 / 5) 2 (17 / 10)
      (fun _ _ _ => rfl) (by norm_num) (by norm_num) (by norm_num) (by norm_num)
      (by norm_num) (by norm_num)⟩

/-- C3: on a (3, H, W) image with even H and W, `mosaic` succeeds with
output shape (4, H/2, W/2); red comes from even rows/even cols of
channel 0, green-red from even rows/odd cols of channel 1, green-blue
from odd rows/even cols of channel 1, blue from odd rows/odd cols of
channel 2; at cell (0, 0): out[0] = img[0,0,0], out[1] = img[1,0,1],
out[2] = img[1,1,0], out[3] = img[2,1,1]. -/
theorem mosaic_shape_and_extraction (H W : ℕ) (img : Image 3 ℚ)
    (hH : H % 2 = 0) (hW : W % 2 = 0) :
    mosaicE H W img = Except.ok ((4, H / 2, W / 2), mosaicData img) ∧
    (∀ i j, mosaicData img 0 i j = img 0 (2 * i) (2 * j)) ∧
    (∀ i j, mosaicData img 1 i j = img 1 (2 * i) (2 * j + 1)) ∧
    (∀ i j, mosaicData img 2 i j = img 1 (2 * i + 1) (2 * j)) ∧
    (∀ i j, mosaicData img 3 i j = img 2 (2 * i + 1) (2 * j + 1)) ∧
    mosaicData img 0 0 0 = img 0 0 0 ∧
    mosaicData img 1 0 0 = img 1 0 1 ∧
    mosaicData img 2 0 0 = img 1 1 0 ∧
    mosaicData img 3 0 0 = img 2 1 1 := by
  refine ⟨?_, fun i j => rfl, fun i j => rfl, fun i j => rfl, fun i j => rfl,
    rfl, rfl, rfl, rfl⟩
  simp [mosaicE, hH, hW]

/-- Witness for C3 at H = W = 2 and the image whose sample at
(c, i, j) is `100c + 10i + j`. -/
theorem mosaic_shape_and_extraction_witness :
    2 % 2 = 0 ∧
    (mosaicE 2 2 (fun c i j => ((100 * c.val + 10 * i + j : ℕ) : ℚ))
        = Except.ok ((4, 2 / 2, 2 / 2),
            mosaicData (fun c i j => ((100 * c.val + 10 * i + j : ℕ) : ℚ))) ∧
      (∀ i j, mosaicData (fun c i j => ((100 * c.val + 10 * i + j : ℕ) : ℚ)) 0 i j
        = (fun (c : Fin 3) i j => ((100 * c.val + 10 * i + j : ℕ) : ℚ)) 0 (2 * i) (2 * j)) ∧
      (∀ i j, mosaicData (fun c i j => ((100 * c.val + 10 * i + j : ℕ) : ℚ)) 1 i j
        = (fun (c : Fin 3) i j => ((100 * c.val + 10 * i + j : ℕ) : ℚ)) 1 (2 * i) (2 * j + 1)) ∧
      (∀ i j, mosaicData (fun c i j => ((100 * c.val + 10 * i + j : ℕ) : ℚ)) 2 i j
        = (fun (c : Fin 3) i j => ((100 * c.val + 10 * i + j : ℕ) : ℚ)) 1 (2 * i + 1) (2 * j)) ∧
      (∀ i j, mosaicData (fun c i j => ((100 * c.val + 10 * i + j : ℕ) : ℚ)) 3 i j
        = (fun (c : Fin 3) i j => ((100 * c.val + 10 * i + j : ℕ) : ℚ)) 2 (2 * i + 1) (2 * j + 1)) ∧
      mosaicData (fun c i j => ((100 * c.val + 10 * i + j : ℕ) : ℚ)) 0 0 0
        = (fun (c : Fin 3) i j => ((100 * c.val + 10 * i + j : ℕ) : ℚ)) 0 0 0 ∧
      mosaicData (fun c i j => ((100 * c.val + 10 * i + j : ℕ) : ℚ)) 1 0 0
        = (fun (c : Fin 3) i j => ((100 * c.val + 10 * i + j : ℕ) : ℚ)) 1 0 1 ∧
      mosaicData (fun c i j => ((100 * c.val + 10 * i + j : ℕ) : ℚ)) 2 0 0
        = (fun (c : Fin 3) i j => ((100 * c.val + 10 * i + j : ℕ) : ℚ)) 1 1 0 ∧
      mosaicData (fun c i j => ((100 * c.val + 10 * i + j : ℕ) : ℚ)) 3 0 0
        = (fun (c : Fin 3) i j => ((100 * c.val + 10 * i + j : ℕ) : ℚ)) 2 1 1) :=
  ⟨rfl, mosaic_shape_and_extraction 2 2 _ rfl rfl⟩

/-- Each of the twelve row weights (row sums of `xyz2cams i * rgb2xyz`)
is positive: a concrete numeric fact about the fixed reference
matrices. -/
lemma rowWeight_pos (i : Fin 4) (r : Fin 3) : 0 < rowWeight i r := by
  fin_cases i <;> fin_cases r <;>
    norm_num [rowWeight, xyz2cams, rgb2xyz, Fin.sum_univ_three]

/-- The row sums of the un-normalized `rgb2cam` are the weight-convex
combinations of the row weights. -/
lemma prenorm_rowsum (w : Fin 4 → ℚ) (r : Fin 3) (hW : (∑ i, w i) ≠ 0) :
    ∑ c, rgb2camPrenorm w r c = (∑ i, w i * rowWeight i r) / (∑ i, w i) := by
  have hW4 : w 0 + w 1 + w 2 + w 3 ≠ 0 := by simpa [Fin.sum_univ_four] using hW
  fin_cases r <;>
    (simp only [rgb2camPrenorm, weightedXyz2cam, rowWeight, Matrix.mul_apply,
      Matrix.of_apply, xyz2cams, rgb2xyz, Fin.sum_univ_three, Fin.sum_univ_four,
      Matrix.cons_val', Matrix.cons_val_zero, Matrix.cons_val_one, Matrix.head_cons,
      Matrix.empty_val', Matrix.cons_val_fin_one, Matrix.head_fin_const];
     field_simp;
     ring)

/-- C8: for every outcome of the four weight draws (uniform on
`[1e-8, 1e8)`, in particular positive), each row of the matrix returned
by `random_ccm` sums to 1: the un-normalized row sums are positive
convex combinations of the twelve positive row weights, hence nonzero,
and the final division normalizes each row exactly. -/
theorem random_ccm_rows_sum_one (w : Fin 4 → ℚ)
    (hw : ∀ i, 1e-8 ≤ w i ∧ w i < 1e8) (r : Fin 3) :
    ∑ c, random_ccm w r c = 1 := by
  have hwpos : ∀ i, 0 < w i := fun i => lt_of_lt_of_le (by norm_num) (hw i).1
  have hW : 0 < ∑ i, w i :=
    Finset.sum_pos (fun i _ => hwpos i) Finset.univ_nonempty
  have hnum : 0 < ∑ i, w i * rowWeight i r :=
    Finset.sum_pos (fun i _ => mul_pos (hwpos i) (rowWeight_pos i r)) Finset.univ_nonempty
  have hS : 0 < ∑ c, rgb2camPrenorm w r c := by
    rw [prenorm_rowsum w r (ne_of_gt hW)]
    exact div_pos hnum hW
  simp only [random_ccm, Matrix.of_apply]
  rw [← Finset.sum_div, div_self (ne_of_gt hS)]

/-- Witness for C8 at the constant weight vector 1 and row 0. -/
theorem random_ccm_rows_sum_one_witness :
    (∀ i : Fin 4, (1e-8 : ℚ) ≤ (fun _ : Fin 4 => (1 : ℚ)) i ∧
      (fun _ : Fin 4 => (1 : ℚ)) i < 1e8) ∧
    ∑ c, random_ccm (fun _ : Fin 4 => (1 : ℚ)) 0 c = 1 :=
  ⟨fun _ => ⟨by norm_num, by norm_num⟩,
    random_ccm_rows_sum_one (fun _ => 1)
      (fun _ => ⟨by norm_num, by norm_num⟩) 0⟩

/-- C9: with no precondition on the input, every sample of
`inverse_smoothstep` lies in `[0, 1]`: the input is clamped to `[0, 1]`
first, so `1 - 2*clamp(y)` lies in `[-1, 1]`, `asin` of it lies in
`[-π/2, π/2]`, a third of that in `[-π/6, π/6]`, its sine in
`[-1/2, 1/2]`, and `0.5` minus that in `[0, 1]`. -/
theorem inverse_smoothstep_bounds (img : Image 3 ℝ) (c : Fin 3) (i j : ℕ) :
    0 ≤ inverse_smoothstep img c i j ∧ inverse_smoothstep img c i j ≤ 1 := by
  unfold inverse_smoothstep
  have hc0 : 0 ≤ clamp01 (img c i j) :=
    le_min (le_max_right _ _) zero_le_one
  have hc1 : clamp01 (img c i j) ≤ 1 := min_le_right _ _
  set z : ℝ := 1.0 - 2.0 * clamp01 (img c i j) with hzdef
  have hz1 : -1 ≤ z := by rw [hzdef]; norm_num; linarith
  have hz2 : z ≤ 1 := by rw [hzdef]; norm_num; linarith
  obtain ⟨ha1, ha2⟩ := Real.arcsin_mem_Icc z
  have hpi := Real.pi_pos
  have hθ1 : -(Real.pi / 2) ≤ Real.arcsin z / 3.0 := by norm_num; linarith
  have hθ2 : Real.arcsin z / 3.0 ≤ Real.pi / 6 := by norm_num; linarith
  have hθ3 : -(Real.pi / 6) ≤ Real.arcsin z / 3.0 := by norm_num; linarith
  have mem1 : Real.arcsin z / 3.0 ∈ Set.Icc (-(Real.pi / 2)) (Real.pi / 2) :=
    ⟨hθ1, by linarith⟩
  have mem2 : Real.pi / 6 ∈ Set.Icc (-(Real.pi / 2)) (Real.pi / 2) :=
    ⟨by linarith, by linarith⟩
  have mem3 : -(Real.pi / 6) ∈ Set.Icc (-(Real.pi / 2)) (Real.pi / 2) :=
    ⟨by linarith, by linarith⟩
  have hs2 : Real.sin (Real.arcsin z / 3.0) ≤ Real.sin (Real.pi / 6) :=
    Real.strictMonoOn_sin.monotoneOn mem1 mem2 hθ2
  have hs3 : Real.sin (-(Real.pi / 6)) ≤ Real.sin (Real.arcsin z / 3.0) :=
    Real.strictMonoOn_sin.monotoneOn mem3 mem1 hθ3
  rw [Real.sin_pi_div_six] at hs2
  rw [Real.sin_neg, Real.sin_pi_div_six] at hs3
  constructor
  · norm_num; linarith
  · norm_num; linarith

/-- C7: for samples in `[0, 1]`, the forward smoothstep tone curve
`3x² - 2x³` applied to the output of `inverse_smoothstep` reconstructs
the input exactly (over the reals): with `s = sin(asin(1 - 2y) / 3)`
the triple-angle identity gives `3s - 4s³ = 1 - 2y`, and
`3(½ - s)² - 2(½ - s)³ = ½ - (3s - 4s³)/2 = y`. -/
theorem smoothstep_inverse_smoothstep (img : Image 3 ℝ) (c : Fin 3) (i j : ℕ)
    (h0 : 0 ≤ img c i j) (h1 : img c i j ≤ 1) :
    smoothstep (inverse_smoothstep img c i j) = img c i j := by
  have hc : clamp01 (img c i j) = img c i j := by
    unfold clamp01
    rw [max_eq_left h0, min_eq_left h1]
  have hz1 : (-1 : ℝ) ≤ 1 - 2 * img c i j := by linarith
  have hz2 : (1 : ℝ) - 2 * img c i j ≤ 1 := by linarith
  have key : Real.sin (3 * (Real.arcsin (1 - 2 * img c i j) / 3))
      = 3 * Real.sin (Real.arcsin (1 - 2 * img c i j) / 3)
        - 4 * Real.sin (Real.arcsin (1 - 2 * img c i j) / 3) ^ 3 :=
    Real.sin_three_mul _
  rw [show (3 : ℝ) * (Real.arcsin (1 - 2 * img c i j) / 3)
      = Real.arcsin (1 - 2 * img c i j) by ring] at key
  rw [Real.sin_arcsin hz1 hz2] at key
  unfold smoothstep inverse_smoothstep
  rw [hc]
  norm_num at key ⊢
  set s : ℝ := Real.sin (Real.arcsin (1 - 2 * img c i j) / 3) with hs
  linear_combination ((1 : ℝ) / 2) * key

/-- Witness for C7 at the constant image 1/2 (where
`inverse_smoothstep` yields 1/2 and the smoothstep returns 1/2). -/
theorem smoothstep_inverse_smoothstep_witness :
    (0 : ℝ) ≤ (fun _ _ _ => (1 / 2 : ℝ)) (0 : Fin 3) 0 0 ∧
    (fun _ _ _ => (1 / 2 : ℝ)) (0 : Fin 3) 0 0 ≤ 1 ∧
    smoothstep (inverse_smoothstep (fun _ _ _ => (1 / 2 : ℝ)) 0 0 0)
      = (fun _ _ _ => (1 / 2 : ℝ)) (0 : Fin 3) 0 0 :=
  ⟨by norm_num, by norm_num,
    smoothstep_inverse_smoothstep (fun _ _ _ => (1 / 2 : ℝ)) 0 0 0
      (by norm_num) (by norm_num)⟩

/-- C4: at every fixed outcome of the parameter sampling (the same CCM
weight draws and gain draws, hence the same `rgb2cam`, `cam2rgb`,
`rgb_gain`, `red_gain`, `blue_gain`), `unprocess` equals the mosaic
stage applied to `unprocess_gt`'s image output, paired with
`unprocess_gt`'s own metadata record: the two orchestrators share the
identical pre-mosaic transform chain and metadata, and differ only in
the final mosaic. -/
theorem unprocess_eq_mosaic_unprocess_gt (w : Fin 4 → ℝ)
    (nSample redU blueU : ℝ) (H W : ℕ) (img : Image 3 ℝ) :
    unprocess w nSample redU blueU H W img
      = (mosaicE H W (unprocess_gt w nSample redU blueU img).1).map
          (fun p => (p, (unprocess_gt w nSample redU blueU img).2)) := rfl

/-- C5: `unprocess_meta_gt` performs no sampling of its own (its source
body contains no random draw, so it embeds as a pure function of its
explicit arguments); two invocations with identical image and identical
camera parameters produce identical output images and identical
metadata. -/
theorem unprocess_meta_gt_deterministic (img1 img2 : Image 3 ℝ)
    (g1 g2 r1 r2 b1 b2 : ℝ) (m1 m2 n1 n2 : Matrix (Fin 3) (Fin 3) ℝ)
    (h1 : img1 = img2) (h2 : g1 = g2) (h3 : r1 = r2) (h4 : b1 = b2)
    (h5 : m1 = m2) (h6 : n1 = n2) :
    unprocess_meta_gt img1 g1 r1 b1 m1 n1
      = unprocess_meta_gt img2 g2 r2 b2 m2 n2 := by
  rw [h1, h2, h3, h4, h5, h6]

/-- Witness for C5 at the constant image 1/2, gains (2, 2, 1.7) and the
matrices `rgb2xyz` (for `rgb2cam`) and `rgb2xyz` (for `cam2rgb`). -/
theorem unprocess_meta_gt_deterministic_witness :
    (fun _ _ _ => (1 / 2 : ℝ)) = (fun (_ : Fin 3) (_ _ : ℕ) => (1 / 2 : ℝ)) ∧
    (2 : ℝ) = 2 ∧ (2 : ℝ) = 2 ∧ (17 / 10 : ℝ) = 17 / 10 ∧
    (rgb2xyz : Matrix (Fin 3) (Fin 3) ℝ) = rgb2xyz ∧
    (rgb2xyz : Matrix (Fin 3) (Fin 3) ℝ) = rgb2xyz ∧
    unprocess_meta_gt (fun _ _ _ => (1 / 2 : ℝ)) 2 2 (17 / 10) rgb2xyz rgb2xyz
      = unprocess_meta_gt (fun _ _ _ => (1 / 2 : ℝ)) 2 2 (17 / 10) rgb2xyz rgb2xyz :=
  ⟨rfl, rfl, rfl, rfl, rfl, rfl,
    unprocess_meta_gt_deterministic (fun _ _ _ => (1 / 2 : ℝ))
      (fun _ _ _ => (1 / 2 : ℝ)) 2 2 2 2 (17 / 10) (17 / 10)
      rgb2xyz rgb2xyz rgb2xyz rgb2xyz rfl rfl rfl rfl rfl rfl⟩

/-- C6 (counterexample): at the concrete odd-shaped input (3, 3, 3)
image of constant value 1/2 (with concrete draws), the pipeline is NOT
rejected before entering the mosaic stage: `unprocess` evaluates, by
definition, to the mosaic stage's own result on the fully computed
pre-mosaic image (every stage before the mosaic is a total function and
completes — first conjunct, which holds by `rfl`), and the error the
pipeline returns is exactly the size-mismatch error raised inside the
mosaic stage by the stack of unequal Bayer planes (second conjunct).
There is no shape validation anywhere before the mosaic stage. -/
theorem unprocess_odd_error_raised_inside_mosaic :
    unprocess (fun _ => 1) 1 2 (17 / 10) 3 3 (fun _ _ _ => (1 / 2 : ℝ))
      = (mosaicE 3 3
          (unprocess_gt (fun _ => 1) 1 2 (17 / 10) (fun _ _ _ => (1 / 2 : ℝ))).1).map
          (fun p => (p,
            (unprocess_gt (fun _ => 1) 1 2 (17 / 10) (fun _ _ _ => (1 / 2 : ℝ))).2)) ∧
    mosaicE 3 3
        (unprocess_gt (fun _ => 1) 1 2 (17 / 10) (fun _ _ _ => (1 / 2 : ℝ))).1
      = Except.error mosaicShapeError := by
  constructor
  · rfl
  · simp [mosaicE]

/-- C6 (amended): for every input image whose height or width is odd,
the pipeline does error with a reported shape error rather than
silently processing the input — but the error is raised inside the
mosaic stage itself (the four Bayer planes have unequal sizes and the
stack fails), not by a validation before the mosaic stage: no such
validation exists in the pipeline. -/
theorem unprocess_odd_rejected_by_mosaic_stage (w : Fin 4 → ℝ)
    (nSample redU blueU : ℝ) (H W : ℕ) (img : Image 3 ℝ)
    (h : H % 2 ≠ 0 ∨ W % 2 ≠ 0) :
    unprocess w nSample redU blueU H W img = Except.error mosaicShapeError := by
  have hno : ¬ (H % 2 = 0 ∧ W % 2 = 0) := by tauto
  simp [unprocess, mosaicE, hno, Except.map]

/-- Witness for C6's amended theorem at shape (3, 3, 4). -/
theorem unprocess_odd_rejected_by_mosaic_stage_witness :
    (3 % 2 ≠ 0 ∨ 4 % 2 ≠ 0) ∧
    unprocess (fun _ => 1) 1 2 (17 / 10) 3 4 (fun _ _ _ => (1 / 2 : ℝ))
      = Except.error mosaicShapeError :=
  ⟨Or.inl (by decide),
    unprocess_odd_rejected_by_mosaic_stage (fun _ => 1) 1 2 (17 / 10) 3 4
      (fun _ _ _ => (1 / 2 : ℝ)) (Or.inl (by decide))⟩

end GcpUnprocess
